import Mathlib

/-!
Verification of the milestone label-layout engine.

This file gives a shallow embedding, over exact rationals, of the layout
algorithms of the timeline components:

* `layoutMilestonesCore` — the collapse/expand packing optimizer of
  `src/components/TimelinePortrait.tsx` (generic over a payload type, as the
  source function is generic over `T extends LayoutInput`; the per-item
  `idx` field models JavaScript object identity, which the source relies on
  when it mutates the candidate object in place and deduplicates candidates
  through a `Set`).
* `computeGanttBars` — the Gantt label layout of the same file.
* `assignRows` — the landscape row assignment of
  `src/components/TimelineView.tsx`.

All numeric fields are rationals (pixel quantities); the source performs only
additions, subtractions, divisions by constants and comparisons on them.
-/

deriving instance DecidableEq for Except

namespace Timeline

/-- Gap between milestones in the portrait layout (`MILESTONE_GAP = 4` in
`TimelinePortrait.tsx`). -/
def MGAP : ℚ := 4

/-- Input of the core layout algorithm (`LayoutInput` in the source), together
with the payload carried through the generic parameter `T`. -/
structure LIn (α : Type) where
  payload : α
  top : ℚ
  height : ℚ
  isColoured : Bool
deriving DecidableEq, Repr

/-- A working layout item (`T & LayoutOutput` in the source).  `idx` models
object identity: the source mutates items of a fixed array in place. -/
structure LItem (α : Type) extends LIn α where
  left : ℚ
  width : ℚ
  collapsed : Bool
  idx : Nat
deriving DecidableEq, Repr

/-- Result of `layoutMilestonesCore`. -/
structure LayoutResult (α : Type) where
  layouts : List (LItem α)
  ok : Bool
deriving DecidableEq, Repr

/-- Options of the core layout algorithm (`LayoutOptions` in the source). -/
structure LayoutOptions where
  maxWidth : ℚ
  expandedWidth : Option ℚ := none
  collapsedWidth : Option ℚ := none
deriving DecidableEq, Repr

/-- Vertical overlap test with the milestone gap (`overlapsY` in
`TimelinePortrait.tsx`). -/
def overlapsY (a b : LIn α) : Bool :=
  !(decide (a.top + a.height + MGAP ≤ b.top) || decide (b.top + b.height + MGAP ≤ a.top))

/-- Stable insertion by an ascending rational key: `x` goes after every
element with a key strictly below its own, so equal keys keep their original
relative order, as the JavaScript stable `sort((a, b) => key(a) - key(b))`
does. -/
def insertBy (key : β → ℚ) (x : β) : List β → List β
  | [] => [x]
  | y :: ys => if key y < key x then y :: insertBy key x ys else x :: y :: ys

/-- Stable insertion sort by an ascending rational key. -/
def sortBy (key : β → ℚ) : List β → List β
  | [] => []
  | x :: xs => insertBy key x (sortBy key xs)

/-- The sliding scan of `runPass`: starting from offset `x`, walk the sorted
spans; stop at the first gap wide enough for `w`, else skip past each span. -/
def slide (w : ℚ) : ℚ → List (ℚ × ℚ) → ℚ
  | x, [] => x
  | x, (s, e) :: rest =>
      if x + w + MGAP ≤ s then x
      else slide w (if x < e + MGAP then e + MGAP else x) rest

/-- Place one item against the already-placed prefix: collect the spans of
vertically overlapping earlier items, sort them by start, and slide from 0. -/
def placeOne (procd : List (LItem α)) (base : LItem α) : LItem α :=
  let others := (procd.filter fun o => overlapsY base.toLIn o.toLIn).map
    fun o => (o.left, o.left + o.width)
  { base with left := slide base.width 0 (sortBy Prod.fst others) }

/-- The placement pass (`runPass` in the source), processing items in order
while threading the processed prefix and the running maximum right edge. -/
def runPassAux : List (LItem α) → ℚ → List (LItem α) → List (LItem α) × ℚ
  | procd, mr, [] => (procd, mr)
  | procd, mr, b :: rest =>
      let b' := placeOne procd b
      runPassAux (procd ++ [b'])
        (if mr < b'.left + b'.width then b'.left + b'.width else mr) rest

/-- One placement pass over the whole list; returns the re-placed items and
the maximum right edge. -/
def runPass (ls : List (LItem α)) : List (LItem α) × ℚ := runPassAux [] 0 ls

/-- Inner loop of candidate collection: iterate over the expanded items,
appending each one that vertically overlaps `ms` and is not already present
(the `Set` deduplication of the source, keyed by object identity = `idx`). -/
def addCands (ms : LItem α) : List (LItem α) → List (LItem α) → List (LItem α)
  | acc, [] => acc
  | acc, other :: rest =>
      if overlapsY ms.toLIn other.toLIn && acc.all (fun e => e.idx != other.idx)
      then addCands ms (acc ++ [other]) rest
      else addCands ms acc rest

/-- Outer loop of candidate collection: iterate over the items sitting at the
maximum right edge. -/
def buildCands (expanded : List (LItem α)) : List (LItem α) → List (LItem α) → List (LItem α)
  | acc, [] => acc
  | acc, ms :: rest => buildCands expanded (addCands ms acc expanded) rest

/-- The fold of `findLeftmost`: keep the first item with the strictly smallest
`left`. -/
def leftmostFrom (best : LItem α) : List (LItem α) → LItem α
  | [] => best
  | ms :: rest => leftmostFrom (if ms.left < best.left then ms else best) rest

/-- The collapse-candidate search (`findCandidate` in the source). -/
def findCandidate (mr : ℚ) (ls : List (LItem α)) : Option (LItem α) :=
  let expanded := ls.filter fun ms => !ms.collapsed
  if expanded.isEmpty then none
  else
    let atMaxRight := ls.filter fun ms => decide (ms.left + ms.width = mr)
    let cands := buildCands expanded [] atMaxRight
    if cands.isEmpty then none
    else
      match cands.filter (fun ms => !ms.isColoured), cands.filter (fun ms => ms.isColoured) with
      | x :: xs, _ => some (leftmostFrom x xs)
      | [], y :: ys => some (leftmostFrom y ys)
      | [], [] => cands.head?

/-- Collapse the item whose identity is `k` (the source mutates the candidate
object: `candidate.collapsed = true; candidate.width = collapsedWidth`). -/
def collapseItem (cw : ℚ) (ls : List (LItem α)) (k : Nat) : List (LItem α) :=
  ls.map fun it => if it.idx = k then { it with collapsed := true, width := cw } else it

/-- The collapse loop of `layoutMilestonesCore`, with an explicit iteration
budget (the source bounds the loop by `n + 2`). -/
def collapseLoop (mw cw : ℚ) : Nat → List (LItem α) → LayoutResult α
  | 0, ls => ⟨ls, false⟩
  | fuel + 1, ls =>
      if (runPass ls).2 ≤ mw then ⟨(runPass ls).1, true⟩
      else
        match findCandidate (runPass ls).2 (runPass ls).1 with
        | none => ⟨(runPass ls).1, false⟩
        | some c => collapseLoop mw cw fuel (collapseItem cw (runPass ls).1 c.idx)

/-- Initial layouts: every item expanded at offset 0, with identities assigned
in list order starting from `i`. -/
def initLayouts (ew : ℚ) : Nat → List (LIn α) → List (LItem α)
  | _, [] => []
  | i, m :: rest => ⟨m, 0, ew, false, i⟩ :: initLayouts ew (i + 1) rest

/-- Variant of `layoutMilestonesCore` with an explicit iteration budget for the collapse
loop. -/
def layoutMilestonesCoreFuel (fuel : Nat) (ms : List (LIn α)) (opts : LayoutOptions) :
    Except String (LayoutResult α) :=
  let cw := opts.collapsedWidth.getD 24
  if opts.maxWidth < cw then .error "collapsedWidth cannot exceed maxWidth"
  else
    let ew := opts.expandedWidth.getD 120
    .ok (collapseLoop opts.maxWidth cw fuel (initLayouts ew 0 (sortBy LIn.top ms)))

/-- The collapse/expand optimizer (`layoutMilestonesCore` in
`TimelinePortrait.tsx`).  The thrown configuration error is modelled as
`Except.error`; the iteration budget is `n + 2` as in the source. -/
def layoutMilestonesCore (ms : List (LIn α)) (opts : LayoutOptions) :
    Except String (LayoutResult α) :=
  layoutMilestonesCoreFuel (ms.length + 2) ms opts

/-! ### Gantt bar layout (`computeGanttBars` in `TimelinePortrait.tsx`) -/

/-- An entry of `RangeMilestoneLookup`. -/
structure RangeInfo where
  startIndex : ℤ
  endIndex : ℤ
  color : Option String
  emoji : String
deriving DecidableEq, Repr

/-- A gantt bar before label layout (`GanttBarBase` in the source). -/
structure GanttBarBase where
  label : String
  startPosition : ℚ
  endPosition : ℚ
  width : ℚ
  color : Option String
  emoji : String
  labelWidth : ℚ
  startIndex : ℤ
  endIndex : ℤ
deriving DecidableEq, Repr

/-- The payload a gantt label carries through the generic layout core: the bar
itself plus the preserved `barWidth` field. -/
structure GanttPayload where
  bar : GanttBarBase
  barWidth : ℚ
deriving DecidableEq, Repr

/-- A gantt bar after label layout (`GanttBarPortrait` in the source). -/
structure GanttBarPortrait where
  label : String
  startPosition : ℚ
  endPosition : ℚ
  width : ℚ
  color : Option String
  emoji : String
  labelWidth : ℚ
  startIndex : ℤ
  endIndex : ℤ
  labelLeftPx : ℚ
  labelExpanded : Bool
deriving DecidableEq, Repr

/-- JavaScript truthiness of an optional string (`!!s`): `undefined` and the
empty string are falsy. -/
def truthyStr : Option String → Bool
  | some s => !(s == "")
  | none => false

/-- The first loop of `computeGanttBars`: derive a bar from each entry of the
range-milestone lookup (an association list, modelling the insertion-ordered
`Object.entries`).  `MILESTONE_PADDING = 20`, `EMOJI_WIDTH = 18`. -/
def mkBars (lookup : List (String × RangeInfo)) (totalDays : ℚ) (mtw : String → ℚ) :
    List GanttBarBase :=
  lookup.map fun p =>
    let startPosition := ((p.2.startIndex : ℚ) / totalDays) * 100
    let endPosition := ((p.2.endIndex : ℚ) / totalDays) * 100
    { label := p.1
      startPosition := startPosition
      endPosition := endPosition
      width := endPosition - startPosition
      color := p.2.color
      emoji := p.2.emoji
      labelWidth := mtw p.1 + 20 + 18
      startIndex := p.2.startIndex
      endIndex := p.2.endIndex }

/-- The label input a bar contributes to the layout core (`labelInputs` in the
source): fixed height 24, top at the bar's centre, `barWidth` preserved. -/
def barLabelInput (containerHeight : ℚ) (bar : GanttBarBase) : LIn GanttPayload :=
  { payload := ⟨bar, bar.width⟩
    top := (bar.startPosition + bar.endPosition) / 2 / 100 * containerHeight - 12
    height := 24
    isColoured := truthyStr bar.color }

/-- The function `computeGanttBars` of `TimelinePortrait.tsx`: derive bars, sort them by
start position, lay their labels out with the collapse/expand core
(`expandedWidth = 120`, `collapsedWidth = 24`), and restore each bar's
original width.  The text measurer is passed in as `mtw`. -/
def computeGanttBars (lookup : List (String × RangeInfo)) (totalDays containerHeight maxWidth : ℚ)
    (mtw : String → ℚ) : Except String (List GanttBarPortrait) :=
  (layoutMilestonesCore
      ((sortBy GanttBarBase.startPosition (mkBars lookup totalDays mtw)).map
        (barLabelInput containerHeight))
      { maxWidth := maxWidth, expandedWidth := some 120, collapsedWidth := some 24 }).map
    fun res => res.layouts.map fun l =>
      { label := l.payload.bar.label
        startPosition := l.payload.bar.startPosition
        endPosition := l.payload.bar.endPosition
        width := l.payload.barWidth
        color := l.payload.bar.color
        emoji := l.payload.bar.emoji
        labelWidth := l.payload.bar.labelWidth
        startIndex := l.payload.bar.startIndex
        endIndex := l.payload.bar.endIndex
        labelLeftPx := l.left
        labelExpanded := !l.collapsed }

/-! ### Landscape row assignment (`assignRows` in `TimelineView.tsx`) -/

/-- Gap between milestones in the landscape layout (`MILESTONE_GAP = 8` in
`TimelineView.tsx`). -/
def RGAP : ℚ := 8

/-- A point milestone entering row assignment; `label` models the source's
`annotation` field. -/
structure RMilestone where
  position : ℚ
  label : String
deriving DecidableEq, Repr

/-- A milestone with its assigned row (`MilestoneWithLayout` in the source,
restricted to the fields row assignment computes or reads). -/
structure RPlaced where
  position : ℚ
  label : String
  width : ℚ
  row : ℤ
deriving DecidableEq, Repr

/-- The per-row occupancy map (`rowOccupancy` in the source), as an
association list from row to the recorded `{left, right}` ranges. -/
abbrev Occ := List (ℤ × List (ℚ × ℚ))

/-- Ranges recorded for a row (`rowOccupancy.get(row) || []`). -/
def lookupOcc : Occ → ℤ → List (ℚ × ℚ)
  | [], _ => []
  | (r, rs) :: rest, row => if r = row then rs else lookupOcc rest row

/-- Record a range for a row (`occupied.push(...)`, `rowOccupancy.set(...)`). -/
def pushOcc : Occ → ℤ → ℚ × ℚ → Occ
  | [], row, rng => [(row, [rng])]
  | (r, rs) :: rest, row, rng =>
      if r = row then (r, rs ++ [rng]) :: rest else (r, rs) :: pushOcc rest row rng

/-- The conflict test of `assignRows` between the candidate span `[l, r]`
(expanded by the gap) and a recorded range. -/
def rangeConflict (l r : ℚ) (rg : ℚ × ℚ) : Bool :=
  !(decide (r + RGAP < rg.1) || decide (l - RGAP > rg.2))

/-- Does the candidate span conflict with any range recorded for `row`? -/
def hasConflictRow (occ : Occ) (row : ℤ) (l r : ℚ) : Bool :=
  (lookupOcc occ row).any (rangeConflict l r)

/-- The inner `for (const row of rowsToTry)` loop: first conflict-free row. -/
def tryRows (occ : Occ) (l r : ℚ) : List ℤ → Option ℤ
  | [] => none
  | row :: rest => if hasConflictRow occ row l r then tryRows occ l r rest else some row

/-- Rows tried at a given distance (`distance === 0 ? [0] : [distance,
-distance]`). -/
def rowsToTry (d : Nat) : List ℤ :=
  if d = 0 then [0] else [(d : ℤ), -(d : ℤ)]

/-- The outward row search of `assignRows`: `remaining` counts the distances
still to try (`maxSearch = 10`), `cur` is the current `assignedRow`, updated
only when a conflict-free row is found at the current distance; the loop exits
early as soon as `cur` is conflict-free. -/
def searchGo (occ : Occ) (l r : ℚ) : Nat → Nat → ℤ → ℤ
  | 0, _, cur => cur
  | remaining + 1, d, cur =>
      let cur' := match tryRows occ l r (rowsToTry d) with
        | some row => row
        | none => cur
      if hasConflictRow occ cur' l r then searchGo occ l r remaining (d + 1) cur' else cur'

/-- The full row search, starting from `assignedRow = 0` at distance 0. -/
def searchRow (occ : Occ) (l r : ℚ) : ℤ := searchGo occ l r 10 0 0

/-- Look an annotation's emoji up (`annotationEmojis[m.annotation]`). -/
def emojiLookup (emojis : List (String × String)) (k : String) : Option String :=
  (emojis.find? fun p => p.1 == k).map Prod.snd

/-- The measured width of a milestone chip: text width plus
`MILESTONE_PADDING = 20` plus `EMOJI_WIDTH = 18` when it has an emoji. -/
def msWidth (mtw : String → ℚ) (emojis : List (String × String)) (m : RMilestone) : ℚ :=
  mtw m.label + 20 + (if truthyStr (emojiLookup emojis m.label) then 18 else 0)

/-- The row found for one milestone: its pixel span is centred at
`position / 100 * W` (`centerPx`) with half the width on each side. -/
def placeMs (W : ℚ) (occ : Occ) (m : RMilestone) (w : ℚ) : ℤ :=
  searchRow occ (m.position / 100 * W - w / 2) (m.position / 100 * W + w / 2)

/-- The main placement loop of `assignRows`: for each milestone (with its
precomputed width), derive its pixel span, search a row, record the span. -/
def assignAux (W : ℚ) : Occ → List (RMilestone × ℚ) → List RPlaced → List RPlaced
  | _, [], acc => acc
  | occ, (m, w) :: rest, acc =>
      assignAux W
        (pushOcc occ (placeMs W occ m w)
          (m.position / 100 * W - w / 2, m.position / 100 * W + w / 2))
        rest (acc ++ [⟨m.position, m.label, w, placeMs W occ m w⟩])

/-- The function `assignRows` of `TimelineView.tsx` (identical to the `assignRows` of the
unnamed timeline component): compute widths, sort by position (stable), then
place each milestone into the closest conflict-free row within the search
budget. -/
def assignRows (milestones : List RMilestone) (W : ℚ) (emojis : List (String × String))
    (mtw : String → ℚ) : List RPlaced :=
  let withWidths := milestones.map fun m => (m, msWidth mtw emojis m)
  assignAux W [] (sortBy (fun p => p.1.position) withWidths) []

/-- The pixel left edge of a placed milestone (`centerPx - width / 2`). -/
def leftOf (W : ℚ) (p : RPlaced) : ℚ := p.position / 100 * W - p.width / 2

/-- The pixel right edge of a placed milestone (`centerPx + width / 2`). -/
def rightOf (W : ℚ) (p : RPlaced) : ℚ := p.position / 100 * W + p.width / 2

/-- Gap-expanded disjointness of two same-row milestones, `a` placed before
`b`: the predicate `assignRows` checks when it accepts a row. -/
def RowsDisjoint (W : ℚ) (a b : RPlaced) : Prop :=
  a.row = b.row → (rightOf W b + RGAP < leftOf W a ∨ leftOf W b - RGAP > rightOf W a)

/-! ### Predicates used by the claim statements -/

/-- Number of currently expanded items of a working state. -/
def countExpanded (ls : List (LItem α)) : Nat := ls.countP fun it => !it.collapsed

/-- The identities of a working state are pairwise distinct (the source works
on a fixed array of distinct objects, so this holds throughout). -/
def IdxNodup (ls : List (LItem α)) : Prop := (ls.map fun it => it.idx).Nodup

instance (ls : List (LItem α)) : Decidable (IdxNodup ls) :=
  inferInstanceAs (Decidable (List.Nodup _))

/-- Membership in the candidate set the collapse-candidate search considers: an
expanded item that vertically overlaps some item sitting at the maximum right
edge `mr`. -/
def IsCollapseCandidate (mr : ℚ) (ls : List (LItem α)) (d : LItem α) : Prop :=
  d ∈ ls ∧ d.collapsed = false ∧
    ∃ m ∈ ls, m.left + m.width = mr ∧ overlapsY m.toLIn d.toLIn = true

/-- Re-expand the item whose identity is `k` back to the expanded width. -/
def expandItem (ew : ℚ) (ls : List (LItem α)) (k : Nat) : List (LItem α) :=
  ls.map fun it => if it.idx = k then { it with collapsed := false, width := ew } else it

/-- Modelled from the spec: the fit re-check of the re-expand pass the spec
describes (re-expand one item, re-run the placement pass, and keep the
re-expansion only if the maximum right edge still fits).  No such pass exists
in the source; this predicate states when the described pass would have kept a
re-expansion. -/
def ReExpandFits (ew mw : ℚ) (ls : List (LItem α)) (k : Nat) : Prop :=
  (runPass (expandItem ew ls k)).2 ≤ mw

instance (ew mw : ℚ) (ls : List (LItem α)) (k : Nat) : Decidable (ReExpandFits ew mw ls k) :=
  inferInstanceAs (Decidable ((runPass (expandItem ew ls k)).2 ≤ mw))

/-! ### Concrete instances used by witnesses and counterexamples -/

/-- A single uncoloured milestone input of height 24. -/
def wIn : LIn Unit := ⟨(), 0, 24, false⟩

/-- Options with a wide budget (defaults: expanded 120, collapsed 24). -/
def wOpts : LayoutOptions := { maxWidth := 200 }

/-- The layout of `wIn` under `wOpts`: expanded at offset 0. -/
def wItem : LItem Unit := ⟨⟨(), 0, 24, false⟩, 0, 120, false, 0⟩

/-- The layout result for `[wIn]` under `wOpts`. -/
def wRes : LayoutResult Unit := ⟨[wItem], true⟩

/-- Three uncoloured milestones in a vertical chain: the first two overlap,
the last two overlap, the first and last do not. -/
def c2ms : List (LIn Unit) := [⟨(), 0, 24, false⟩, ⟨(), 20, 24, false⟩, ⟨(), 40, 24, false⟩]

/-- Options under which `c2ms` needs two collapses to fit. -/
def c2opts : LayoutOptions :=
  { maxWidth := 150, expandedWidth := some 100, collapsedWidth := some 10 }

/-- The result the optimizer returns for `c2ms` under `c2opts`: the first two
items collapsed, the third expanded. -/
def c2res : LayoutResult Unit :=
  ⟨[⟨⟨(), 0, 24, false⟩, 0, 10, true, 0⟩,
    ⟨⟨(), 20, 24, false⟩, 14, 10, true, 1⟩,
    ⟨⟨(), 40, 24, false⟩, 28, 100, false, 2⟩], true⟩

/-- A single already-collapsed working item, as a loop state. -/
def wCollapsedItem : LItem Unit := ⟨⟨(), 0, 24, false⟩, 0, 10, true, 0⟩

/-- A one-entry range-milestone lookup: label "A", days 2 to 7. -/
def c7lookup : List (String × RangeInfo) := [("A", ⟨2, 7, none, "e"⟩)]

/-- The gantt output for `c7lookup` over a 10-day axis (container height 100,
label budget 200, text measurer constantly 5). -/
def c7bar : GanttBarPortrait :=
  { label := "A", startPosition := 20, endPosition := 70, width := 50, color := none,
    emoji := "e", labelWidth := 43, startIndex := 2, endIndex := 7,
    labelLeftPx := 0, labelExpanded := true }

/-- The full gantt output list for `c7lookup`. -/
def c7out : List GanttBarPortrait := [c7bar]

/-- Twenty identical milestones at position 50 — within the 5 to 200 range the
spec's property quantifies over. -/
def ex20 : List RMilestone := List.replicate 20 ⟨50, "M"⟩

/-- The source's fallback text measurer (`text.length * 7`). -/
def mtw7 : String → ℚ := fun s => 7 * s.length

/-- The rows `assignRows` assigns to `ex20` in a 100px container. -/
def ex20out : List RPlaced := assignRows ex20 100 [] mtw7

/-- The placed record both the 1st and the 20th of `ex20` receive: row 0. -/
def exPlaced : RPlaced := ⟨50, "M", 27, 0⟩

/-- Two far-apart milestones. -/
def ex2 : List RMilestone := [⟨10, "A"⟩, ⟨90, "B"⟩]

/-! ### Lemmas about the stable sort -/

theorem insertBy_perm (key : β → ℚ) (x : β) (l : List β) :
    List.Perm (insertBy key x l) (x :: l) := by
  induction l with
  | nil => simp [insertBy]
  | cons y ys ih =>
      simp only [insertBy]
      split
      · exact (ih.cons y).trans (List.Perm.swap x y ys)
      · exact List.Perm.refl _

theorem sortBy_perm (key : β → ℚ) (l : List β) : List.Perm (sortBy key l) l := by
  induction l with
  | nil => exact List.Perm.refl _
  | cons x xs ih => exact (insertBy_perm key x (sortBy key xs)).trans (ih.cons x)

theorem sortBy_length (key : β → ℚ) (l : List β) : (sortBy key l).length = l.length :=
  (sortBy_perm key l).length_eq

/-! ### Lemmas about the placement pass -/

theorem slide_ge (w : ℚ) (l : List (ℚ × ℚ)) : ∀ x : ℚ, x ≤ slide w x l := by
  induction l with
  | nil => intro x; exact le_refl x
  | cons se rest ih =>
      intro x
      rcases se with ⟨s, e⟩
      simp only [slide]
      split
      · exact le_refl x
      · refine le_trans ?_ (ih _)
        split
        · next h => exact le_of_lt h
        · exact le_refl x

theorem placeOne_left_nonneg (procd : List (LItem α)) (b : LItem α) :
    0 ≤ (placeOne procd b).left := by
  simpa [placeOne] using slide_ge b.width _ 0

theorem runPassAux_map (f : LItem α → β)
    (hf : ∀ (procd : List (LItem α)) (b : LItem α), f (placeOne procd b) = f b) :
    ∀ (l procd : List (LItem α)) (mr : ℚ),
      ((runPassAux procd mr l).1).map f = (procd ++ l).map f := by
  intro l
  induction l with
  | nil => intro procd mr; simp [runPassAux]
  | cons b rest ih =>
      intro procd mr
      simp only [runPassAux]
      rw [ih]
      simp [hf]

theorem runPass_map (f : LItem α → β)
    (hf : ∀ (procd : List (LItem α)) (b : LItem α), f (placeOne procd b) = f b)
    (ls : List (LItem α)) : ((runPass ls).1).map f = ls.map f := by
  simpa using runPassAux_map f hf ls [] 0

theorem runPass_length (ls : List (LItem α)) : (runPass ls).1.length = ls.length := by
  have h := runPass_map (fun it => it.collapsed) (fun _ _ => rfl) ls
  have := congrArg List.length h
  simpa using this

theorem updMax_le_left (mr v : ℚ) : mr ≤ if mr < v then v else mr := by
  split
  · next h => exact le_of_lt h
  · exact le_refl mr

theorem updMax_le_right (mr v : ℚ) : v ≤ if mr < v then v else mr := by
  split
  · exact le_refl v
  · next h => exact not_lt.mp h

theorem runPassAux_snd_mono :
    ∀ (l procd : List (LItem α)) (mr : ℚ), mr ≤ (runPassAux procd mr l).2 := by
  intro l
  induction l with
  | nil => intro procd mr; exact le_refl mr
  | cons b rest ih =>
      intro procd mr
      simp only [runPassAux]
      exact le_trans (updMax_le_left _ _) (ih _ _)

theorem runPassAux_right_le :
    ∀ (l procd : List (LItem α)) (mr : ℚ),
      (∀ it ∈ procd, it.left + it.width ≤ mr) →
      ∀ it ∈ (runPassAux procd mr l).1, it.left + it.width ≤ (runPassAux procd mr l).2 := by
  intro l
  induction l with
  | nil =>
      intro procd mr h it hit
      exact h it hit
  | cons b rest ih =>
      intro procd mr h
      simp only [runPassAux]
      refine ih _ _ ?_
      intro it hit
      rcases List.mem_append.mp hit with h1 | h2
      · exact le_trans (h it h1) (updMax_le_left _ _)
      · rcases List.mem_singleton.mp h2 with rfl
        exact updMax_le_right _ _

theorem runPass_right_le (ls : List (LItem α)) :
    ∀ it ∈ (runPass ls).1, it.left + it.width ≤ (runPass ls).2 := by
  have h := runPassAux_right_le ls [] 0 (by intro it hit; simp at hit)
  simpa using h

/-! ### Lemmas about collapsing an item -/

theorem collapseItem_idxs (cw : ℚ) (ls : List (LItem α)) (k : Nat) :
    (collapseItem cw ls k).map (fun it => it.idx) = ls.map fun it => it.idx := by
  induction ls with
  | nil => rfl
  | cons a l ih =>
      simp only [collapseItem, List.map_cons] at ih ⊢
      rw [ih]
      by_cases h : a.idx = k <;> simp [h]

/-! ### Lemmas about the collapse loop -/

theorem collapseLoop_ok_le (mw cw : ℚ) :
    ∀ (fuel : Nat) (ls : List (LItem α)),
      (collapseLoop mw cw fuel ls).ok = true →
      ∀ it ∈ (collapseLoop mw cw fuel ls).layouts, it.left + it.width ≤ mw := by
  intro fuel
  induction fuel with
  | zero => intro ls h; simp [collapseLoop] at h
  | succ n ih =>
      intro ls h it hit
      simp only [collapseLoop] at h hit
      by_cases hle : (runPass ls).2 ≤ mw
      · rw [if_pos hle] at hit
        exact le_trans (runPass_right_le ls it hit) hle
      · rw [if_neg hle] at h hit
        rcases hfc : findCandidate (runPass ls).2 (runPass ls).1 with _ | c
        · rw [hfc] at h
          simp at h
        · rw [hfc] at h hit
          exact ih _ h it hit

theorem core_ok_inv (ms : List (LIn α)) (opts : LayoutOptions) (r : LayoutResult α)
    (h : layoutMilestonesCore ms opts = .ok r) :
    ¬(opts.maxWidth < opts.collapsedWidth.getD 24) ∧
      r = collapseLoop opts.maxWidth (opts.collapsedWidth.getD 24) (ms.length + 2)
        (initLayouts (opts.expandedWidth.getD 120) 0 (sortBy LIn.top ms)) := by
  unfold layoutMilestonesCore layoutMilestonesCoreFuel at h
  by_cases hcw : opts.maxWidth < opts.collapsedWidth.getD 24
  · rw [if_pos hcw] at h
    exact absurd h (by simp)
  · rw [if_neg hcw] at h
    refine ⟨hcw, ?_⟩
    exact (Except.ok.injEq _ _).mp h |>.symm

/-- C1: for every input list on which the optimizer returns (so
`collapsedWidth ≤ maxWidth`) a converged layout (`ok = true`), every returned
item satisfies `left + width ≤ maxWidth`. -/
theorem c1_containment (ms : List (LIn α)) (opts : LayoutOptions) (r : LayoutResult α)
    (it : LItem α) (hok : layoutMilestonesCore ms opts = .ok r) (hr : r.ok = true)
    (hit : it ∈ r.layouts) : it.left + it.width ≤ opts.maxWidth := by
  rcases core_ok_inv ms opts r hok with ⟨-, rfl⟩
  exact collapseLoop_ok_le _ _ _ _ hr it hit

/-- C1 witness: a concrete converged layout whose single item fits the
budget. -/
theorem c1_containment_witness : wItem.left + wItem.width ≤ wOpts.maxWidth :=
  c1_containment [wIn] wOpts wRes wItem (by decide!) (by decide) (by decide)

/-- C6: the optimizer fails (the source throws) exactly when the collapsed
width exceeds the maximum width; under the precondition it always returns a
result. -/
theorem c6_error_iff (ms : List (LIn α)) (opts : LayoutOptions) :
    ((∃ e, layoutMilestonesCore ms opts = .error e) ↔
        opts.maxWidth < opts.collapsedWidth.getD 24) ∧
    ((∃ r, layoutMilestonesCore ms opts = .ok r) ↔
        ¬(opts.maxWidth < opts.collapsedWidth.getD 24)) := by
  unfold layoutMilestonesCore layoutMilestonesCoreFuel
  by_cases h : opts.maxWidth < opts.collapsedWidth.getD 24 <;> simp [h]

/-- C6 witness: the error-iff at a concrete instance. -/
theorem c6_error_iff_witness :
    ((∃ e, layoutMilestonesCore ([] : List (LIn Unit)) wOpts = .error e) ↔
        wOpts.maxWidth < wOpts.collapsedWidth.getD 24) ∧
      ((∃ r, layoutMilestonesCore ([] : List (LIn Unit)) wOpts = .ok r) ↔
        ¬(wOpts.maxWidth < wOpts.collapsedWidth.getD 24)) :=
  c6_error_iff [] wOpts

/-- Helper: the collapse loop on an empty state converges immediately when the
budget is non-negative. -/
theorem collapseLoop_nil (mw cw : ℚ) (h : 0 ≤ mw) (fuel : Nat) :
    collapseLoop (α := α) mw cw (fuel + 1) [] = ⟨[], true⟩ := by
  simp [collapseLoop, runPass, runPassAux, h]

/-- C8: an empty milestone list (with `0 ≤ collapsedWidth ≤ maxWidth`; widths
are non-negative pixel quantities) yields an empty layout with `ok = true`
and no error. -/
theorem c8_empty_ok (opts : LayoutOptions) (h0 : 0 ≤ opts.collapsedWidth.getD 24)
    (hle : opts.collapsedWidth.getD 24 ≤ opts.maxWidth) :
    layoutMilestonesCore ([] : List (LIn α)) opts = .ok ⟨[], true⟩ := by
  unfold layoutMilestonesCore layoutMilestonesCoreFuel
  rw [if_neg (not_lt.mpr hle)]
  show Except.ok (collapseLoop opts.maxWidth _ (1 + 1) (initLayouts _ 0 (sortBy _ []))) = _
  rw [show sortBy (LIn.top (α := α)) [] = [] from rfl]
  rw [show initLayouts (α := α) (opts.expandedWidth.getD 120) 0 [] = [] from rfl]
  rw [collapseLoop_nil _ _ (le_trans h0 hle) 1]

/-- C8 witness: concrete options satisfying the precondition. -/
theorem c8_empty_ok_witness :
    layoutMilestonesCore ([] : List (LIn Unit)) { maxWidth := 24 } = .ok ⟨[], true⟩ :=
  c8_empty_ok { maxWidth := 24 } (by decide) (by decide)

/-! ### Output-shape lemmas (widths, offsets, one layout per input) -/

theorem collapseItem_mem (cw : ℚ) (ls : List (LItem α)) (k : Nat) (it : LItem α)
    (hit : it ∈ collapseItem cw ls k) :
    ∃ b ∈ ls, it = b ∨ it = { b with collapsed := true, width := cw } := by
  rcases List.mem_map.mp hit with ⟨b, hb, hbe⟩
  refine ⟨b, hb, ?_⟩
  by_cases h : b.idx = k
  · right
    rw [← hbe]
    simp [h]
  · left
    rw [← hbe]
    simp [h]

theorem runPassAux_winv (ew cw : ℚ) :
    ∀ (l procd : List (LItem α)) (mr : ℚ),
      (∀ it ∈ procd, 0 ≤ it.left ∧ it.width = (if it.collapsed = true then cw else ew)) →
      (∀ it ∈ l, it.width = (if it.collapsed = true then cw else ew)) →
      ∀ it ∈ (runPassAux procd mr l).1,
        0 ≤ it.left ∧ it.width = (if it.collapsed = true then cw else ew) := by
  intro l
  induction l with
  | nil => intro procd mr h _ it hit; exact h it hit
  | cons b rest ih =>
      intro procd mr h hl
      simp only [runPassAux]
      refine ih _ _ ?_ ?_
      · intro it hit
        rcases List.mem_append.mp hit with h1 | h2
        · exact h it h1
        · rcases List.mem_singleton.mp h2 with rfl
          exact ⟨placeOne_left_nonneg procd b, hl b (List.mem_cons_self b rest)⟩
      · intro it hit
        exact hl it (List.mem_cons_of_mem b hit)

theorem collapseLoop_winv (mw cw ew : ℚ) :
    ∀ (fuel : Nat) (ls : List (LItem α)),
      (∀ it ∈ ls, 0 ≤ it.left ∧ it.width = (if it.collapsed = true then cw else ew)) →
      ∀ it ∈ (collapseLoop mw cw fuel ls).layouts,
        0 ≤ it.left ∧ it.width = (if it.collapsed = true then cw else ew) := by
  intro fuel
  induction fuel with
  | zero => intro ls h it hit; exact h it hit
  | succ n ih =>
      intro ls h it hit
      have hpass : ∀ it ∈ (runPass ls).1,
          0 ≤ it.left ∧ it.width = (if it.collapsed = true then cw else ew) := by
        have := runPassAux_winv ew cw ls [] 0 (by intro it hit; simp at hit)
          (by intro it hit; exact (h it hit).2)
        simpa [runPass] using this
      simp only [collapseLoop] at hit
      by_cases hle : (runPass ls).2 ≤ mw
      · rw [if_pos hle] at hit
        exact hpass it hit
      · rw [if_neg hle] at hit
        rcases hfc : findCandidate (runPass ls).2 (runPass ls).1 with _ | c
        · rw [hfc] at hit
          exact hpass it hit
        · rw [hfc] at hit
          refine ih _ ?_ it hit
          intro b hb
          rcases collapseItem_mem cw _ _ b hb with ⟨a, ha, he | he⟩
          · rw [he]
            exact hpass a ha
          · rw [he]
            exact ⟨(hpass a ha).1, rfl⟩

theorem initLayouts_winv (ew cw : ℚ) :
    ∀ (i : Nat) (ms : List (LIn α)), ∀ it ∈ initLayouts ew i ms,
      0 ≤ it.left ∧ it.width = (if it.collapsed = true then cw else ew) := by
  intro i ms
  induction ms generalizing i with
  | nil => intro it hit; simp [initLayouts] at hit
  | cons m rest ih =>
      intro it hit
      rcases List.mem_cons.mp hit with rfl | h2
      · exact ⟨le_refl 0, rfl⟩
      · exact ih (i + 1) it h2

theorem collapseItem_map_toLIn (cw : ℚ) (ls : List (LItem α)) (k : Nat) :
    (collapseItem cw ls k).map (fun it => it.toLIn) = ls.map fun it => it.toLIn := by
  induction ls with
  | nil => rfl
  | cons a l ih =>
      simp only [collapseItem, List.map_cons] at ih ⊢
      rw [ih]
      by_cases h : a.idx = k <;> simp [h]

theorem collapseLoop_map_toLIn (mw cw : ℚ) :
    ∀ (fuel : Nat) (ls : List (LItem α)),
      (collapseLoop mw cw fuel ls).layouts.map (fun it => it.toLIn) =
        ls.map fun it => it.toLIn := by
  intro fuel
  induction fuel with
  | zero => intro ls; rfl
  | succ n ih =>
      intro ls
      have hpass : (runPass ls).1.map (fun it => it.toLIn) = ls.map fun it => it.toLIn :=
        runPass_map (fun it => it.toLIn) (fun _ _ => rfl) ls
      simp only [collapseLoop]
      by_cases hle : (runPass ls).2 ≤ mw
      · rw [if_pos hle]
        exact hpass
      · rw [if_neg hle]
        rcases hfc : findCandidate (runPass ls).2 (runPass ls).1 with _ | c
        · exact hpass
        · rw [ih, collapseItem_map_toLIn]
          exact hpass

theorem initLayouts_map_toLIn (ew : ℚ) :
    ∀ (i : Nat) (ms : List (LIn α)), (initLayouts ew i ms).map (fun it => it.toLIn) = ms := by
  intro i ms
  induction ms generalizing i with
  | nil => rfl
  | cons m rest ih => simp [initLayouts, ih]

/-- C10: the optimizer returns exactly one layout per input item (same count;
the underlying inputs are a permutation of the given ones), every offset is
non-negative, and every width is the expanded width when the item is expanded
and the collapsed width when it is collapsed. -/
theorem c10_output_shape (ms : List (LIn α)) (opts : LayoutOptions) (r : LayoutResult α)
    (it : LItem α) (hok : layoutMilestonesCore ms opts = .ok r) (hit : it ∈ r.layouts) :
    (r.layouts.length = ms.length ∧ List.Perm (r.layouts.map fun l => l.toLIn) ms) ∧
      (0 ≤ it.left ∧
        it.width =
          (if it.collapsed = true then opts.collapsedWidth.getD 24
            else opts.expandedWidth.getD 120)) := by
  rcases core_ok_inv ms opts r hok with ⟨-, rfl⟩
  constructor
  · have hmap := collapseLoop_map_toLIn opts.maxWidth (opts.collapsedWidth.getD 24)
      (ms.length + 2) (initLayouts (opts.expandedWidth.getD 120) 0 (sortBy LIn.top ms))
    rw [initLayouts_map_toLIn] at hmap
    constructor
    · have := congrArg List.length hmap
      simpa [sortBy_length] using this
    · rw [hmap]
      exact sortBy_perm LIn.top ms
  · exact collapseLoop_winv _ _ _ _ _
      (initLayouts_winv (opts.expandedWidth.getD 120) (opts.collapsedWidth.getD 24) 0
        (sortBy LIn.top ms)) it hit

/-- C10 witness: the concrete single-item layout. -/
theorem c10_output_shape_witness :
    (wRes.layouts.length = [wIn].length ∧ List.Perm (wRes.layouts.map fun l => l.toLIn) [wIn]) ∧
      (0 ≤ wItem.left ∧
        wItem.width =
          (if wItem.collapsed = true then wOpts.collapsedWidth.getD 24
            else wOpts.expandedWidth.getD 120)) :=
  c10_output_shape [wIn] wOpts wRes wItem (by decide!) (by decide)

/-! ### Collapse-flag monotonicity (no re-expand pass) -/

theorem runPass_getElem_collapsed (ls : List (LItem α)) (i : Nat) :
    ((runPass ls).1[i]?).map (fun it => it.collapsed) =
      (ls[i]?).map fun it => it.collapsed := by
  have h := runPass_map (fun it => it.collapsed) (fun _ _ => rfl) ls
  have h2 := congrArg (fun l => l[i]?) h
  simpa [List.getElem?_map] using h2

/-- C2 (amended): the collapse loop never re-expands: an item collapsed in any
loop state is still collapsed in the returned layouts.  (The spec's re-expand
pass does not exist in the source.) -/
theorem c2_no_reexpand (mw cw : ℚ) (fuel : Nat) (ls : List (LItem α)) (i : Nat)
    (h : (ls[i]?).map (fun it => it.collapsed) = some true) :
    (((collapseLoop mw cw fuel ls).layouts)[i]?).map (fun it => it.collapsed) = some true := by
  induction fuel generalizing ls with
  | zero => exact h
  | succ n ih =>
      have hpass : ((runPass ls).1[i]?).map (fun it => it.collapsed) = some true := by
        rw [runPass_getElem_collapsed]
        exact h
      simp only [collapseLoop]
      by_cases hle : (runPass ls).2 ≤ mw
      · rw [if_pos hle]
        exact hpass
      · rw [if_neg hle]
        rcases hfc : findCandidate (runPass ls).2 (runPass ls).1 with _ | c
        · exact hpass
        · refine ih _ ?_
          rcases Option.map_eq_some'.mp hpass with ⟨a, ha, hac⟩
          have : (collapseItem cw (runPass ls).1 c.idx)[i]? =
              some (if a.idx = c.idx then { a with collapsed := true, width := cw } else a) := by
            simp only [collapseItem, List.getElem?_map, ha, Option.map_some']
          rw [this]
          by_cases hid : a.idx = c.idx <;> simp [hid, hac]

/-- C2 (amended) witness: a collapsed single-item state stays collapsed. -/
theorem c2_no_reexpand_witness :
    ((((collapseLoop 150 10 1 [wCollapsedItem]).layouts)[0]?).map fun it => it.collapsed) =
      some true :=
  c2_no_reexpand 150 10 1 [wCollapsedItem] 0 (by decide)

/-- C2 counterexample: a concrete input on which the loop collapses the first
item, converges with `ok = true`, and the re-expand pass the spec describes
would have re-expanded that item (re-expanding it still fits), yet the
returned layout keeps it collapsed — so no re-expand pass exists. -/
theorem c2_counterexample :
    layoutMilestonesCore c2ms c2opts = .ok c2res ∧ c2res.ok = true ∧
      (c2res.layouts.map fun it => it.collapsed) = [true, true, false] ∧
      ReExpandFits 100 150 c2res.layouts 0 :=
  ⟨by decide!, rfl, by decide, by decide!⟩

/-! ### The single-item tight fit -/

theorem c9_tight_fit (m : LIn α) (cw ew : ℚ) (h0 : 0 ≤ cw) (hh : 0 ≤ m.height)
    (hlt : cw < ew) :
    layoutMilestonesCore [m]
        { maxWidth := cw, expandedWidth := some ew, collapsedWidth := some cw } =
      .ok ⟨[⟨m, 0, cw, true, 0⟩], true⟩ := by
  have hew : (0 : ℚ) < ew := lt_of_le_of_lt h0 hlt
  have hov : overlapsY m m = true := by
    simp only [overlapsY, MGAP, Bool.not_eq_eq_eq_not, Bool.not_true, Bool.or_eq_false_iff,
      decide_eq_false_iff_not, not_le]
    constructor <;> linarith
  have hnle : ¬(ew ≤ cw) := not_le.mpr hlt
  have hrp : runPass [(⟨m, 0, ew, false, 0⟩ : LItem α)] =
      ([⟨m, 0, ew, false, 0⟩], if (0 : ℚ) < 0 + ew then 0 + ew else 0) := rfl
  have hmr : (if (0 : ℚ) < 0 + ew then 0 + ew else 0) = ew := by
    rw [zero_add, if_pos hew]
  have hfc : findCandidate ew [(⟨m, 0, ew, false, 0⟩ : LItem α)] =
      some ⟨m, 0, ew, false, 0⟩ := by
    have hd : decide ((0 : ℚ) + ew = ew) = true := decide_eq_true (zero_add ew)
    rcases hc : m.isColoured <;>
      simp [findCandidate, buildCands, addCands, leftmostFrom, hov, hc, hd]
  have hrp2 : runPass [(⟨m, 0, cw, true, 0⟩ : LItem α)] =
      ([⟨m, 0, cw, true, 0⟩], if (0 : ℚ) < 0 + cw then 0 + cw else 0) := rfl
  have hmr2 : (if (0 : ℚ) < 0 + cw then 0 + cw else 0) ≤ cw := by
    rw [zero_add]
    split
    · exact le_refl cw
    · exact h0
  unfold layoutMilestonesCore layoutMilestonesCoreFuel
  simp only [Option.getD_some, List.length_cons, List.length_nil]
  rw [if_neg (lt_irrefl cw)]
  show Except.ok (collapseLoop cw cw (0 + 1 + 2) (initLayouts ew 0 (sortBy LIn.top [m]))) = _
  rw [show sortBy LIn.top [m] = [m] from rfl]
  rw [show initLayouts ew 0 [m] = [(⟨m, 0, ew, false, 0⟩ : LItem α)] from rfl]
  rw [show (0 + 1 + 2 : Nat) = 2 + 1 from rfl]
  rw [show collapseLoop cw cw (2 + 1) [(⟨m, 0, ew, false, 0⟩ : LItem α)] =
      (if (runPass [(⟨m, 0, ew, false, 0⟩ : LItem α)]).2 ≤ cw
        then (⟨(runPass [(⟨m, 0, ew, false, 0⟩ : LItem α)]).1, true⟩ : LayoutResult α)
        else
          match findCandidate (runPass [(⟨m, 0, ew, false, 0⟩ : LItem α)]).2
              (runPass [(⟨m, 0, ew, false, 0⟩ : LItem α)]).1 with
          | none => ⟨(runPass [(⟨m, 0, ew, false, 0⟩ : LItem α)]).1, false⟩
          | some c =>
              collapseLoop cw cw 2
                (collapseItem cw (runPass [(⟨m, 0, ew, false, 0⟩ : LItem α)]).1 c.idx))
      from rfl]
  rw [hrp]
  simp only [hmr]
  rw [if_neg hnle, hfc]
  show Except.ok (collapseLoop cw cw 2 (collapseItem cw [⟨m, 0, ew, false, 0⟩] 0)) = _
  rw [show collapseItem cw [(⟨m, 0, ew, false, 0⟩ : LItem α)] 0 =
      [(⟨m, 0, cw, true, 0⟩ : LItem α)] from rfl]
  rw [show (2 : Nat) = 1 + 1 from rfl]
  rw [show collapseLoop cw cw (1 + 1) [(⟨m, 0, cw, true, 0⟩ : LItem α)] =
      (if (runPass [(⟨m, 0, cw, true, 0⟩ : LItem α)]).2 ≤ cw
        then (⟨(runPass [(⟨m, 0, cw, true, 0⟩ : LItem α)]).1, true⟩ : LayoutResult α)
        else
          match findCandidate (runPass [(⟨m, 0, cw, true, 0⟩ : LItem α)]).2
              (runPass [(⟨m, 0, cw, true, 0⟩ : LItem α)]).1 with
          | none => ⟨(runPass [(⟨m, 0, cw, true, 0⟩ : LItem α)]).1, false⟩
          | some c =>
              collapseLoop cw cw 1
                (collapseItem cw (runPass [(⟨m, 0, cw, true, 0⟩ : LItem α)]).1 c.idx))
      from rfl]
  rw [hrp2]
  rw [if_pos hmr2]

/-- C9 witness: a concrete single item at the exact collapsed-width budget. -/
theorem c9_tight_fit_witness :
    layoutMilestonesCore [wIn]
        { maxWidth := 24, expandedWidth := some 120, collapsedWidth := some 24 } =
      .ok ⟨[⟨wIn, 0, 24, true, 0⟩], true⟩ :=
  c9_tight_fit wIn 24 120 (by decide) (by decide) (by decide)

/-! ### Lemmas about the candidate search -/

theorem addCands_subset (ms : LItem α) :
    ∀ (others acc : List (LItem α)) (d : LItem α),
      d ∈ addCands ms acc others → d ∈ acc ∨ d ∈ others := by
  intro others
  induction others with
  | nil => intro acc d h; exact Or.inl h
  | cons other rest ih =>
      intro acc d h
      simp only [addCands] at h
      split at h
      · rcases ih _ d h with h1 | h2
        · rcases List.mem_append.mp h1 with ha | hb
          · exact Or.inl ha
          · rcases List.mem_singleton.mp hb with rfl
            exact Or.inr (List.mem_cons_self _ _)
        · exact Or.inr (List.mem_cons_of_mem _ h2)
      · rcases ih _ d h with h1 | h2
        · exact Or.inl h1
        · exact Or.inr (List.mem_cons_of_mem _ h2)

theorem buildCands_subset (expanded : List (LItem α)) :
    ∀ (l acc : List (LItem α)) (d : LItem α),
      d ∈ buildCands expanded acc l → d ∈ acc ∨ d ∈ expanded := by
  intro l
  induction l with
  | nil => intro acc d h; exact Or.inl h
  | cons ms rest ih =>
      intro acc d h
      simp only [buildCands] at h
      rcases ih _ d h with h1 | h2
      · exact addCands_subset ms expanded acc d h1
      · exact Or.inr h2

theorem leftmostFrom_mem :
    ∀ (l : List (LItem α)) (best : LItem α), leftmostFrom best l ∈ best :: l := by
  intro l
  induction l with
  | nil => intro best; exact List.mem_singleton.mpr rfl
  | cons ms rest ih =>
      intro best
      simp only [leftmostFrom]
      rcases List.mem_cons.mp (ih (if ms.left < best.left then ms else best)) with h | h
      · rw [h]
        split
        · exact List.mem_cons_of_mem _ (List.mem_cons_self _ _)
        · exact List.mem_cons_self _ _
      · exact List.mem_cons_of_mem _ (List.mem_cons_of_mem _ h)

theorem findCandidate_some (mr : ℚ) (ls : List (LItem α)) (c : LItem α)
    (h : findCandidate mr ls = some c) : c ∈ ls ∧ c.collapsed = false := by
  unfold findCandidate at h
  by_cases he : (ls.filter fun ms => !ms.collapsed).isEmpty
  · rw [if_pos he] at h
    exact absurd h (by simp)
  · rw [if_neg he] at h
    by_cases hce : (buildCands (ls.filter fun ms => !ms.collapsed) []
        (ls.filter fun ms => decide (ms.left + ms.width = mr))).isEmpty
    · rw [if_pos hce] at h
      exact absurd h (by simp)
    · rw [if_neg hce] at h
      have hcands : ∀ d ∈ buildCands (ls.filter fun ms => !ms.collapsed) []
          (ls.filter fun ms => decide (ms.left + ms.width = mr)),
          d ∈ ls ∧ d.collapsed = false := by
        intro d hd
        rcases buildCands_subset _ _ _ d hd with h1 | h2
        · exact absurd h1 (List.not_mem_nil d)
        · have := List.mem_filter.mp h2
          exact ⟨this.1, by simpa using this.2⟩
      rcases hnc : (buildCands (ls.filter fun ms => !ms.collapsed) []
          (ls.filter fun ms => decide (ms.left + ms.width = mr))).filter
            (fun ms => !ms.isColoured) with _ | ⟨x, xs⟩
      · rcases hcol : (buildCands (ls.filter fun ms => !ms.collapsed) []
            (ls.filter fun ms => decide (ms.left + ms.width = mr))).filter
              (fun ms => ms.isColoured) with _ | ⟨y, ys⟩
        · rw [hnc, hcol] at h
          have hc := List.mem_of_mem_head? (by simpa using h)
          exact hcands c hc
        · rw [hnc, hcol] at h
          have hc : c ∈ y :: ys := by
            have := Option.some.inj h
            rw [← this]
            exact leftmostFrom_mem ys y
          rw [← hcol] at hc
          exact hcands c (List.mem_of_mem_filter hc)
      · rw [hnc] at h
        have hc : c ∈ x :: xs := by
          have := Option.some.inj h
          rw [← this]
          exact leftmostFrom_mem xs x
        rw [← hnc] at hc
        exact hcands c (List.mem_of_mem_filter hc)

/-! ### Counting expanded items -/

theorem countExpanded_eq (ls : List (LItem α)) :
    countExpanded ls = (ls.map fun it => it.collapsed).countP fun b => !b := by
  simp only [countExpanded, List.countP_map]
  rfl

theorem runPass_countExpanded (ls : List (LItem α)) :
    countExpanded (runPass ls).1 = countExpanded ls := by
  rw [countExpanded_eq, countExpanded_eq,
    runPass_map (fun it => it.collapsed) (fun _ _ => rfl)]

theorem runPass_idxs (ls : List (LItem α)) :
    (runPass ls).1.map (fun it => it.idx) = ls.map fun it => it.idx :=
  runPass_map (fun it => it.idx) (fun _ _ => rfl) ls

theorem collapseItem_countExpanded (cw : ℚ) :
    ∀ (ls : List (LItem α)) (c : LItem α), IdxNodup ls → c ∈ ls → c.collapsed = false →
      countExpanded (collapseItem cw ls c.idx) + 1 = countExpanded ls := by
  intro ls
  induction ls with
  | nil => intro c _ hc; exact absurd hc (List.not_mem_nil c)
  | cons a rest ih =>
      intro c hnd hc hcol
      have hnd' : (a.idx ∉ rest.map fun it => it.idx) ∧ IdxNodup rest := by
        have := hnd
        simp only [IdxNodup, List.map_cons, List.nodup_cons] at this
        exact this
      rcases List.mem_cons.mp hc with rfl | hmem
      · have hrest : rest.map
            (fun it => if it.idx = c.idx then { it with collapsed := true, width := cw } else it) =
            rest := by
          have h1 : rest.map
              (fun it =>
                if it.idx = c.idx then { it with collapsed := true, width := cw } else it) =
              rest.map id := by
            apply List.map_congr_left
            intro b hb
            have : b.idx ≠ c.idx := by
              intro he
              exact hnd'.1 (he ▸ List.mem_map_of_mem (fun it => it.idx) hb)
            simp [this]
          rw [h1, List.map_id]
        simp only [collapseItem, List.map_cons, if_pos rfl, hrest]
        simp [countExpanded, List.countP_cons, hcol]
      · have hne : a.idx ≠ c.idx := by
          intro he
          exact hnd'.1 (he ▸ List.mem_map_of_mem (fun it => it.idx) hmem)
        have := ih c hnd'.2 hmem hcol
        simp only [collapseItem, List.map_cons, if_neg hne]
        simp only [collapseItem] at this
        simp [countExpanded, List.countP_cons] at this ⊢
        omega

/-! ### Stabilization of the collapse loop -/

theorem collapseLoop_stable (mw cw : ℚ) :
    ∀ (k : Nat) (ls : List (LItem α)), IdxNodup ls → countExpanded ls = k →
      ∀ f1 f2 : Nat, k + 1 ≤ f1 → k + 1 ≤ f2 →
        collapseLoop mw cw f1 ls = collapseLoop mw cw f2 ls := by
  intro k
  induction k with
  | zero =>
      intro ls _ h0 f1 f2 h1 h2
      obtain ⟨a1, rfl⟩ : ∃ a, f1 = a + 1 := ⟨f1 - 1, by omega⟩
      obtain ⟨a2, rfl⟩ : ∃ a, f2 = a + 1 := ⟨f2 - 1, by omega⟩
      have hce : countExpanded (runPass ls).1 = 0 := by
        rw [runPass_countExpanded]; exact h0
      have hfe : ((runPass ls).1.filter fun ms => !ms.collapsed) = [] := by
        rw [← List.length_eq_zero, ← List.countP_eq_length_filter]
        exact hce
      have hfc : findCandidate (runPass ls).2 (runPass ls).1 = none := by
        unfold findCandidate
        rw [hfe]
        simp
      simp only [collapseLoop, hfc]
  | succ n ih =>
      intro ls hnd hk f1 f2 h1 h2
      obtain ⟨a1, rfl⟩ : ∃ a, f1 = a + 1 := ⟨f1 - 1, by omega⟩
      obtain ⟨a2, rfl⟩ : ∃ a, f2 = a + 1 := ⟨f2 - 1, by omega⟩
      simp only [collapseLoop]
      by_cases hle : (runPass ls).2 ≤ mw
      · rw [if_pos hle, if_pos hle]
      · rw [if_neg hle, if_neg hle]
        rcases hfc : findCandidate (runPass ls).2 (runPass ls).1 with _ | c
        · rfl
        · rcases findCandidate_some _ _ c hfc with ⟨hcm, hcol⟩
          have hnd1 : IdxNodup (runPass ls).1 := by
            unfold IdxNodup
            rw [runPass_idxs]
            exact hnd
          have hnd2 : IdxNodup (collapseItem cw (runPass ls).1 c.idx) := by
            unfold IdxNodup
            rw [collapseItem_idxs]
            exact hnd1
          have hcnt : countExpanded (collapseItem cw (runPass ls).1 c.idx) = n := by
            have heq := collapseItem_countExpanded cw (runPass ls).1 c hnd1 hcm hcol
            rw [runPass_countExpanded, hk] at heq
            omega
          exact ih _ hnd2 hcnt a1 a2 (by omega) (by omega)

/-! ### Identities and counts of the initial state -/

theorem initLayouts_idxs (ew : ℚ) :
    ∀ (ms : List (LIn α)) (i : Nat),
      (initLayouts ew i ms).map (fun it => it.idx) = List.range' i ms.length := by
  intro ms
  induction ms with
  | nil => intro i; rfl
  | cons m rest ih => intro i; simp [initLayouts, ih, List.range'_succ]

theorem initLayouts_countExpanded (ew : ℚ) :
    ∀ (ms : List (LIn α)) (i : Nat), countExpanded (initLayouts ew i ms) = ms.length := by
  intro ms
  induction ms with
  | nil => intro i; rfl
  | cons m rest ih =>
      intro i
      simp [initLayouts, countExpanded, List.countP_cons] at ih ⊢
      exact ih (i + 1)

/-- C3: the collapse loop stabilizes within the `n + 2` iteration budget (a
larger budget returns the identical result, so the loop terminates within
`n + 2` iterations), and a collapse candidate is never an already-collapsed
item. -/
theorem c3_collapse_termination (ms : List (LIn α)) (opts : LayoutOptions) (fuel : Nat)
    (hfuel : ms.length + 2 ≤ fuel) (ls : List (LItem α)) (mr : ℚ) (c : LItem α)
    (hc : findCandidate mr ls = some c) :
    layoutMilestonesCoreFuel fuel ms opts = layoutMilestonesCore ms opts ∧
      c.collapsed = false := by
  constructor
  · unfold layoutMilestonesCore layoutMilestonesCoreFuel
    by_cases h : opts.maxWidth < opts.collapsedWidth.getD 24
    · rw [if_pos h, if_pos h]
    · rw [if_neg h, if_neg h]
      have hnd : IdxNodup (initLayouts (opts.expandedWidth.getD 120) 0 (sortBy LIn.top ms)) := by
        unfold IdxNodup
        rw [initLayouts_idxs]
        exact List.nodup_range' 0 _
      have hcnt : countExpanded (initLayouts (opts.expandedWidth.getD 120) 0
          (sortBy LIn.top ms)) = ms.length := by
        rw [initLayouts_countExpanded, sortBy_length]
      exact congrArg Except.ok (collapseLoop_stable _ _ ms.length _ hnd hcnt fuel
        (ms.length + 2) (by omega) (by omega))
  · exact (findCandidate_some mr ls c hc).2

/-- C3 witness: budget 2 on an empty input; a concrete candidate returned by
the search is expanded. -/
theorem c3_collapse_termination_witness :
    layoutMilestonesCoreFuel 2 ([] : List (LIn Unit)) { maxWidth := 24 } =
        layoutMilestonesCore ([] : List (LIn Unit)) { maxWidth := 24 } ∧
      wItem.collapsed = false :=
  c3_collapse_termination [] { maxWidth := 24 } 2 (by decide) [wItem] 120 wItem (by decide!)

/-! ### Characterization of the candidate list -/

theorem idx_inj (ls : List (LItem α)) (hnd : IdxNodup ls) (a b : LItem α)
    (ha : a ∈ ls) (hb : b ∈ ls) (h : a.idx = b.idx) : a = b :=
  List.inj_on_of_nodup_map hnd ha hb h

theorem addCands_mono (ms : LItem α) :
    ∀ (others acc : List (LItem α)) (d : LItem α),
      d ∈ acc → d ∈ addCands ms acc others := by
  intro others
  induction others with
  | nil => intro acc d h; exact h
  | cons other rest ih =>
      intro acc d h
      simp only [addCands]
      split
      · exact ih _ d (List.mem_append_left _ h)
      · exact ih _ d h

theorem addCands_mem (ls : List (LItem α)) (hnd : IdxNodup ls) (ms : LItem α) :
    ∀ (others acc : List (LItem α)), (∀ x ∈ acc, x ∈ ls) → (∀ x ∈ others, x ∈ ls) →
      ∀ d : LItem α,
        (d ∈ addCands ms acc others ↔
          d ∈ acc ∨ (d ∈ others ∧ overlapsY ms.toLIn d.toLIn = true)) := by
  intro others
  induction others with
  | nil =>
      intro acc _ _ d
      constructor
      · intro h; exact Or.inl h
      · intro h
        rcases h with h | ⟨h, _⟩
        · exact h
        · exact absurd h (List.not_mem_nil d)
  | cons other rest ih =>
      intro acc hacc hoth d
      have hoth' : ∀ x ∈ rest, x ∈ ls := fun x hx => hoth x (List.mem_cons_of_mem _ hx)
      have hothm : other ∈ ls := hoth other (List.mem_cons_self _ _)
      simp only [addCands]
      by_cases hov : overlapsY ms.toLIn other.toLIn = true
      · by_cases hnew : (acc.all fun e => e.idx != other.idx) = true
        · rw [if_pos (by rw [hov, hnew]; rfl)]
          have hacc' : ∀ x ∈ acc ++ [other], x ∈ ls := by
            intro x hx
            rcases List.mem_append.mp hx with h1 | h2
            · exact hacc x h1
            · rcases List.mem_singleton.mp h2 with rfl
              exact hothm
          rw [ih _ hacc' hoth' d]
          constructor
          · intro h
            rcases h with h | ⟨h1, h2⟩
            · rcases List.mem_append.mp h with h1 | h2
              · exact Or.inl h1
              · rcases List.mem_singleton.mp h2 with rfl
                exact Or.inr ⟨List.mem_cons_self _ _, hov⟩
            · exact Or.inr ⟨List.mem_cons_of_mem _ h1, h2⟩
          · intro h
            rcases h with h | ⟨h1, h2⟩
            · exact Or.inl (List.mem_append_left _ h)
            · rcases List.mem_cons.mp h1 with rfl | hr
              · exact Or.inl (List.mem_append_right _ (List.mem_singleton.mpr rfl))
              · exact Or.inr ⟨hr, h2⟩
        · rw [if_neg (by rw [hov]; simpa using hnew)]
          have hdup : ∃ e ∈ acc, e.idx = other.idx := by
            have hfalse : (acc.all fun e => e.idx != other.idx) = false :=
              Bool.eq_false_iff.mpr hnew
            rcases List.all_eq_false.mp hfalse with ⟨e, he, hne⟩
            exact ⟨e, he, by simpa using hne⟩
          rcases hdup with ⟨e, he, hei⟩
          have heo : e = other := idx_inj ls hnd e other (hacc e he) hothm hei
          rw [ih _ hacc hoth' d]
          constructor
          · intro h
            rcases h with h | ⟨h1, h2⟩
            · exact Or.inl h
            · exact Or.inr ⟨List.mem_cons_of_mem _ h1, h2⟩
          · intro h
            rcases h with h | ⟨h1, h2⟩
            · exact Or.inl h
            · rcases List.mem_cons.mp h1 with rfl | hr
              · exact Or.inl (heo ▸ he)
              · exact Or.inr ⟨hr, h2⟩
      · rw [Bool.not_eq_true] at hov
        rw [if_neg (by simp [hov])]
        rw [ih _ hacc hoth' d]
        constructor
        · intro h
          rcases h with h | ⟨h1, h2⟩
          · exact Or.inl h
          · exact Or.inr ⟨List.mem_cons_of_mem _ h1, h2⟩
        · intro h
          rcases h with h | ⟨h1, h2⟩
          · exact Or.inl h
          · rcases List.mem_cons.mp h1 with rfl | hr
            · rw [hov] at h2
              exact absurd h2 (by simp)
            · exact Or.inr ⟨hr, h2⟩

theorem buildCands_mem (ls : List (LItem α)) (hnd : IdxNodup ls)
    (expanded : List (LItem α)) (hexp : ∀ x ∈ expanded, x ∈ ls) :
    ∀ (l acc : List (LItem α)), (∀ x ∈ acc, x ∈ ls) →
      ∀ d : LItem α,
        (d ∈ buildCands expanded acc l ↔
          d ∈ acc ∨ ∃ ms ∈ l, d ∈ expanded ∧ overlapsY ms.toLIn d.toLIn = true) := by
  intro l
  induction l with
  | nil =>
      intro acc _ d
      simp [buildCands]
  | cons ms rest ih =>
      intro acc hacc d
      simp only [buildCands]
      have hacc' : ∀ x ∈ addCands ms acc expanded, x ∈ ls := by
        intro x hx
        rcases addCands_subset ms expanded acc x hx with h1 | h2
        · exact hacc x h1
        · exact hexp x h2
      rw [ih _ hacc' d, addCands_mem ls hnd ms expanded acc hacc hexp d]
      constructor
      · intro h
        rcases h with (h | ⟨h1, h2⟩) | ⟨a, ha, h3, h4⟩
        · exact Or.inl h
        · exact Or.inr ⟨ms, List.mem_cons_self _ _, h1, h2⟩
        · exact Or.inr ⟨a, List.mem_cons_of_mem _ ha, h3, h4⟩
      · intro h
        rcases h with h | ⟨a, ha, h3, h4⟩
        · exact Or.inl (Or.inl h)
        · rcases List.mem_cons.mp ha with rfl | hr
          · exact Or.inl (Or.inr ⟨h3, h4⟩)
          · exact Or.inr ⟨a, hr, h3, h4⟩

theorem cands_mem (mr : ℚ) (ls : List (LItem α)) (hnd : IdxNodup ls) (d : LItem α) :
    (d ∈ buildCands (ls.filter fun ms => !ms.collapsed) []
        (ls.filter fun ms => decide (ms.left + ms.width = mr)) ↔
      IsCollapseCandidate mr ls d) := by
  rw [buildCands_mem ls hnd _ (fun x hx => (List.mem_filter.mp hx).1) _ []
    (by intro x hx; exact absurd hx (List.not_mem_nil x)) d]
  unfold IsCollapseCandidate
  constructor
  · intro h
    rcases h with h | ⟨m, hm, hd, hov⟩
    · exact absurd h (List.not_mem_nil d)
    · have hdf := List.mem_filter.mp hd
      have hmf := List.mem_filter.mp hm
      exact ⟨hdf.1, by simpa using hdf.2, m, hmf.1, by simpa using hmf.2, hov⟩
  · rintro ⟨hdm, hdc, m, hmm, hmr, hov⟩
    refine Or.inr ⟨m, List.mem_filter.mpr ⟨hmm, by simpa using hmr⟩,
      List.mem_filter.mpr ⟨hdm, by simpa using hdc⟩, hov⟩

theorem leftmostFrom_le :
    ∀ (l : List (LItem α)) (best : LItem α) (d : LItem α),
      d ∈ best :: l → (leftmostFrom best l).left ≤ d.left := by
  intro l
  induction l with
  | nil =>
      intro best d hd
      rcases List.mem_singleton.mp hd with rfl
      exact le_refl _
  | cons ms rest ih =>
      intro best d hd
      simp only [leftmostFrom]
      have hbest : (leftmostFrom (if ms.left < best.left then ms else best) rest).left ≤
          (if ms.left < best.left then ms else best).left :=
        ih _ _ (List.mem_cons_self _ _)
      rcases List.mem_cons.mp hd with rfl | hd2
      · refine le_trans hbest ?_
        split
        · next h => exact le_of_lt h
        · exact le_refl _
      · rcases List.mem_cons.mp hd2 with rfl | hd3
        · refine le_trans hbest ?_
          split
          · exact le_refl _
          · next h => exact not_lt.mp h
        · exact ih _ d (List.mem_cons_of_mem _ hd3)

/-- C4: the collapse candidate the search returns is an expanded item that
vertically overlaps some item at the maximum right edge; when any non-coloured
candidate exists the choice is a non-coloured one of minimal offset (leftmost),
and when the choice is coloured (all candidates coloured) it has minimal offset
among all candidates. -/
theorem c4_candidate_selection (ls : List (LItem α)) (mr : ℚ) (c d : LItem α)
    (hnd : IdxNodup ls) (h : findCandidate mr ls = some c) :
    IsCollapseCandidate mr ls c ∧
      (IsCollapseCandidate mr ls d → d.isColoured = false →
        c.isColoured = false ∧ c.left ≤ d.left) ∧
      (IsCollapseCandidate mr ls d → c.isColoured = true → c.left ≤ d.left) := by
  unfold findCandidate at h
  by_cases he : (ls.filter fun ms => !ms.collapsed).isEmpty
  · rw [if_pos he] at h
    exact absurd h (by simp)
  · rw [if_neg he] at h
    by_cases hce : (buildCands (ls.filter fun ms => !ms.collapsed) []
        (ls.filter fun ms => decide (ms.left + ms.width = mr))).isEmpty
    · rw [if_pos hce] at h
      exact absurd h (by simp)
    · rw [if_neg hce] at h
      have hmem : ∀ x : LItem α,
          x ∈ buildCands (ls.filter fun ms => !ms.collapsed) []
            (ls.filter fun ms => decide (ms.left + ms.width = mr)) ↔
          IsCollapseCandidate mr ls x := cands_mem mr ls hnd
      rcases hnc : (buildCands (ls.filter fun ms => !ms.collapsed) []
          (ls.filter fun ms => decide (ms.left + ms.width = mr))).filter
            (fun ms => !ms.isColoured) with _ | ⟨x, xs⟩
      · rcases hcol : (buildCands (ls.filter fun ms => !ms.collapsed) []
            (ls.filter fun ms => decide (ms.left + ms.width = mr))).filter
              (fun ms => ms.isColoured) with _ | ⟨y, ys⟩
        · exfalso
          rcases List.exists_mem_of_ne_nil _ (by simpa using hce) with ⟨z, hz⟩
          by_cases hzc : z.isColoured = true
          · have : z ∈ (buildCands (ls.filter fun ms => !ms.collapsed) []
                (ls.filter fun ms => decide (ms.left + ms.width = mr))).filter
                  (fun ms => ms.isColoured) := List.mem_filter.mpr ⟨hz, by simpa using hzc⟩
            rw [hcol] at this
            exact absurd this (List.not_mem_nil z)
          · have : z ∈ (buildCands (ls.filter fun ms => !ms.collapsed) []
                (ls.filter fun ms => decide (ms.left + ms.width = mr))).filter
                  (fun ms => !ms.isColoured) := List.mem_filter.mpr ⟨hz, by simpa using hzc⟩
            rw [hnc] at this
            exact absurd this (List.not_mem_nil z)
        · rw [hnc, hcol] at h
          have hcc : c = leftmostFrom y ys := (Option.some.inj h).symm
          have hcin : c ∈ (buildCands (ls.filter fun ms => !ms.collapsed) []
              (ls.filter fun ms => decide (ms.left + ms.width = mr))).filter
                (fun ms => ms.isColoured) := by
            rw [hcol, hcc]
            exact leftmostFrom_mem ys y
          have hcf := List.mem_filter.mp hcin
          refine ⟨(hmem c).mp hcf.1, ?_, ?_⟩
          · intro hd hdcol
            exfalso
            have : d ∈ (buildCands (ls.filter fun ms => !ms.collapsed) []
                (ls.filter fun ms => decide (ms.left + ms.width = mr))).filter
                  (fun ms => !ms.isColoured) :=
              List.mem_filter.mpr ⟨(hmem d).mpr hd, by simp [hdcol]⟩
            rw [hnc] at this
            exact absurd this (List.not_mem_nil d)
          · intro hd _
            by_cases hdc : d.isColoured = true
            · have hdin : d ∈ (buildCands (ls.filter fun ms => !ms.collapsed) []
                  (ls.filter fun ms => decide (ms.left + ms.width = mr))).filter
                    (fun ms => ms.isColoured) :=
                List.mem_filter.mpr ⟨(hmem d).mpr hd, by simpa using hdc⟩
              rw [hcol] at hdin
              rw [hcc]
              exact leftmostFrom_le ys y d hdin
            · exfalso
              have : d ∈ (buildCands (ls.filter fun ms => !ms.collapsed) []
                  (ls.filter fun ms => decide (ms.left + ms.width = mr))).filter
                    (fun ms => !ms.isColoured) :=
                List.mem_filter.mpr ⟨(hmem d).mpr hd, by simpa using hdc⟩
              rw [hnc] at this
              exact absurd this (List.not_mem_nil d)
      · rw [hnc] at h
        have hcc : c = leftmostFrom x xs := (Option.some.inj h).symm
        have hcin : c ∈ (buildCands (ls.filter fun ms => !ms.collapsed) []
            (ls.filter fun ms => decide (ms.left + ms.width = mr))).filter
              (fun ms => !ms.isColoured) := by
          rw [hnc, hcc]
          exact leftmostFrom_mem xs x
        have hcf := List.mem_filter.mp hcin
        have hccol : c.isColoured = false := by simpa using hcf.2
        refine ⟨(hmem c).mp hcf.1, ?_, ?_⟩
        · intro hd hdcol
          refine ⟨hccol, ?_⟩
          have hdin : d ∈ (buildCands (ls.filter fun ms => !ms.collapsed) []
              (ls.filter fun ms => decide (ms.left + ms.width = mr))).filter
                (fun ms => !ms.isColoured) :=
            List.mem_filter.mpr ⟨(hmem d).mpr hd, by simp [hdcol]⟩
          rw [hnc] at hdin
          rw [hcc]
          exact leftmostFrom_le xs x d hdin
        · intro _ hcol'
          rw [hccol] at hcol'
          exact absurd hcol' (by simp)

/-- C4 witness: with a single expanded item at the maximum right edge, the
search selects it, and the selection facts hold at that instance. -/
theorem c4_candidate_selection_witness :
    IsCollapseCandidate 120 [wItem] wItem ∧
      (IsCollapseCandidate 120 [wItem] wItem → wItem.isColoured = false →
        wItem.isColoured = false ∧ wItem.left ≤ wItem.left) ∧
      (IsCollapseCandidate 120 [wItem] wItem → wItem.isColoured = true →
        wItem.left ≤ wItem.left) :=
  c4_candidate_selection [wItem] 120 wItem wItem (by decide) (by decide!)

/-! ### Gantt label layout never moves or resizes bars -/

theorem core_layouts_map_toLIn (ms : List (LIn α)) (opts : LayoutOptions)
    (r : LayoutResult α) (h : layoutMilestonesCore ms opts = .ok r) :
    r.layouts.map (fun it => it.toLIn) = sortBy LIn.top ms := by
  rcases core_ok_inv ms opts r h with ⟨-, rfl⟩
  rw [collapseLoop_map_toLIn, initLayouts_map_toLIn]

/-- C7: the bars of `computeGanttBars` keep exactly the `startPosition`,
`endPosition` and `width` derived from their date ranges before label layout
runs — label layout affects only `labelLeftPx` and `labelExpanded`; there is
one output bar per lookup entry. -/
theorem c7_bars_unchanged (lookup : List (String × RangeInfo))
    (totalDays containerHeight maxWidth : ℚ) (mtw : String → ℚ)
    (out : List GanttBarPortrait) (b : GanttBarPortrait)
    (hok : computeGanttBars lookup totalDays containerHeight maxWidth mtw = .ok out)
    (hb : b ∈ out) :
    out.length = lookup.length ∧
      ∃ p ∈ lookup, b.label = p.1 ∧
        b.startPosition = ((p.2.startIndex : ℚ) / totalDays) * 100 ∧
        b.endPosition = ((p.2.endIndex : ℚ) / totalDays) * 100 ∧
        b.width = b.endPosition - b.startPosition := by
  unfold computeGanttBars at hok
  rcases hcore : layoutMilestonesCore
      ((sortBy GanttBarBase.startPosition (mkBars lookup totalDays mtw)).map
        (barLabelInput containerHeight))
      { maxWidth := maxWidth, expandedWidth := some 120, collapsedWidth := some 24 }
    with e | res
  · rw [hcore] at hok
    exact absurd hok (by simp [Except.map])
  · rw [hcore] at hok
    simp only [Except.map] at hok
    injection hok with hout
    subst hout
    have hmap := core_layouts_map_toLIn _ _ _ hcore
    constructor
    · rw [List.length_map]
      have h1 := congrArg List.length hmap
      rw [List.length_map, sortBy_length, List.length_map, sortBy_length] at h1
      rw [h1]
      simp [mkBars]
    · rcases List.mem_map.mp hb with ⟨l, hl, rfl⟩
      have hlin : l.toLIn ∈ sortBy LIn.top
          ((sortBy GanttBarBase.startPosition (mkBars lookup totalDays mtw)).map
            (barLabelInput containerHeight)) := by
        rw [← hmap]
        exact List.mem_map_of_mem _ hl
      have hlin2 := (sortBy_perm _ _).subset hlin
      rcases List.mem_map.mp hlin2 with ⟨bar, hbar, hbe⟩
      have hbar2 : bar ∈ mkBars lookup totalDays mtw := (sortBy_perm _ _).subset hbar
      rcases List.mem_map.mp hbar2 with ⟨p, hp, hpe⟩
      have hpay : l.payload = ⟨bar, bar.width⟩ := (congrArg LIn.payload hbe).symm
      subst hpe
      refine ⟨p, hp, ?_, ?_, ?_, ?_⟩
      · show l.payload.bar.label = p.1
        rw [hpay]
      · show l.payload.bar.startPosition = ((p.2.startIndex : ℚ) / totalDays) * 100
        rw [hpay]
      · show l.payload.bar.endPosition = ((p.2.endIndex : ℚ) / totalDays) * 100
        rw [hpay]
      · show l.payload.barWidth = l.payload.bar.endPosition - l.payload.bar.startPosition
        rw [hpay]

/-- C7 witness: one concrete range milestone; its bar's geometry equals the
values derived from the date range. -/
theorem c7_bars_unchanged_witness :
    c7out.length = c7lookup.length ∧
      ∃ p ∈ c7lookup, c7bar.label = p.1 ∧
        c7bar.startPosition = ((p.2.startIndex : ℚ) / 10) * 100 ∧
        c7bar.endPosition = ((p.2.endIndex : ℚ) / 10) * 100 ∧
        c7bar.width = c7bar.endPosition - c7bar.startPosition :=
  c7_bars_unchanged c7lookup 10 100 200 (fun _ => 5) c7out c7bar (by decide!) (by decide!)

/-! ### Lemmas about the row-occupancy map -/

theorem lookupOcc_push_same :
    ∀ (occ : Occ) (row : ℤ) (rng : ℚ × ℚ),
      lookupOcc (pushOcc occ row rng) row = lookupOcc occ row ++ [rng] := by
  intro occ
  induction occ with
  | nil => intro row rng; simp [pushOcc, lookupOcc]
  | cons e rest ih =>
      intro row rng
      rcases e with ⟨r, rs⟩
      by_cases h : r = row
      · simp [pushOcc, lookupOcc, h]
      · simp [pushOcc, lookupOcc, h, ih]

theorem lookupOcc_push_ne :
    ∀ (occ : Occ) (row row' : ℤ) (rng : ℚ × ℚ), row' ≠ row →
      lookupOcc (pushOcc occ row rng) row' = lookupOcc occ row' := by
  intro occ
  induction occ with
  | nil =>
      intro row row' rng h
      simp only [pushOcc, lookupOcc, if_neg (Ne.symm h)]
  | cons e rest ih =>
      intro row row' rng h
      rcases e with ⟨r, rs⟩
      by_cases hr : r = row
      · subst hr
        simp only [pushOcc, if_pos rfl, lookupOcc, if_neg (Ne.symm h)]
      · by_cases hr' : r = row'
        · subst hr'
          simp [pushOcc, lookupOcc, hr]
        · simp only [pushOcc, if_neg hr, lookupOcc, if_neg hr', ih _ _ _ h]

theorem pushOcc_length :
    ∀ (occ : Occ) (row : ℤ) (rng : ℚ × ℚ), (pushOcc occ row rng).length ≤ occ.length + 1 := by
  intro occ
  induction occ with
  | nil => intro row rng; simp [pushOcc]
  | cons e rest ih =>
      intro row rng
      rcases e with ⟨r, rs⟩
      by_cases h : r = row
      · simp [pushOcc, h]
      · simp only [pushOcc, if_neg h, List.length_cons]
        have := ih row rng
        omega

theorem lookupOcc_ne_nil_mem :
    ∀ (occ : Occ) (row : ℤ), lookupOcc occ row ≠ [] → row ∈ occ.map Prod.fst := by
  intro occ
  induction occ with
  | nil => intro row h; exact absurd rfl h
  | cons e rest ih =>
      intro row h
      rcases e with ⟨r, rs⟩
      by_cases hr : r = row
      · subst hr
        exact List.mem_cons_self _ _
      · rw [lookupOcc, if_neg hr] at h
        exact List.mem_cons_of_mem _ (ih row h)

/-! ### Lemmas about the outward row search -/

theorem tryRows_some (occ : Occ) (l r : ℚ) :
    ∀ (rows : List ℤ) (row : ℤ), tryRows occ l r rows = some row →
      hasConflictRow occ row l r = false ∧ row ∈ rows := by
  intro rows
  induction rows with
  | nil => intro row h; exact absurd h (by simp [tryRows])
  | cons row0 rest ih =>
      intro row h
      simp only [tryRows] at h
      split at h
      · rcases ih row h with ⟨h1, h2⟩
        exact ⟨h1, List.mem_cons_of_mem _ h2⟩
      · next hc =>
          rcases Option.some.inj h with rfl
          exact ⟨Bool.eq_false_iff.mpr hc, List.mem_cons_self _ _⟩

theorem tryRows_none (occ : Occ) (l r : ℚ) :
    ∀ (rows : List ℤ), tryRows occ l r rows = none →
      ∀ row ∈ rows, hasConflictRow occ row l r = true := by
  intro rows
  induction rows with
  | nil => intro _ row h; exact absurd h (List.not_mem_nil row)
  | cons row0 rest ih =>
      intro h row hrow
      simp only [tryRows] at h
      split at h
      · next hc =>
          rcases List.mem_cons.mp hrow with rfl | h2
          · exact hc
          · exact ih h row h2
      · exact absurd h (by simp)

theorem searchGo_free (occ : Occ) (l r : ℚ) :
    ∀ (remaining d : Nat) (cur : ℤ),
      (∃ d', d ≤ d' ∧ d' < d + remaining ∧
        ∃ row ∈ rowsToTry d', hasConflictRow occ row l r = false) →
      hasConflictRow occ (searchGo occ l r remaining d cur) l r = false := by
  intro remaining
  induction remaining with
  | zero =>
      intro d cur h
      rcases h with ⟨d', h1, h2, -⟩
      omega
  | succ n ih =>
      intro d cur h
      simp only [searchGo]
      rcases htr : tryRows occ l r (rowsToTry d) with _ | row
      · by_cases hc : hasConflictRow occ cur l r = true
        · rw [if_pos hc]
          apply ih (d + 1) cur
          rcases h with ⟨d', h1, h2, row, hrow, hfree⟩
          have hne : d' ≠ d := by
            intro he
            rw [tryRows_none occ l r _ htr row (he ▸ hrow)] at hfree
            exact absurd hfree (by simp)
          exact ⟨d', by omega, by omega, row, hrow, hfree⟩
        · rw [if_neg hc]
          exact Bool.eq_false_iff.mpr hc
      · rcases tryRows_some occ l r _ row htr with ⟨hfree, -⟩
        rw [if_neg (by rw [hfree]; simp)]
        exact hfree

/-! ### Pigeonhole over the searched rows -/

theorem exists_free_distance (occ : Occ) (l r : ℚ) (hlen : occ.length ≤ 18) :
    ∃ d', d' < 10 ∧ ∃ row ∈ rowsToTry d', hasConflictRow occ row l r = false := by
  by_contra h
  have hall : ∀ row ∈ (List.range 10).flatMap rowsToTry, hasConflictRow occ row l r = true := by
    intro row hrow
    rcases List.mem_flatMap.mp hrow with ⟨d', hd', hrow'⟩
    by_contra hfree
    exact h ⟨d', List.mem_range.mp hd', row, hrow', Bool.eq_false_iff.mpr hfree⟩
  have hsub : ∀ row ∈ (List.range 10).flatMap rowsToTry, row ∈ occ.map Prod.fst := by
    intro row hrow
    apply lookupOcc_ne_nil_mem
    intro hnil
    have := hall row hrow
    simp [hasConflictRow, hnil] at this
  have hnd : ((List.range 10).flatMap rowsToTry).Nodup := by decide
  have hlen19 : ((List.range 10).flatMap rowsToTry).length = 19 := by decide
  have h1 : ((List.range 10).flatMap rowsToTry).toFinset.card ≤
      (occ.map Prod.fst).toFinset.card := by
    apply Finset.card_le_card
    intro x hx
    rw [List.mem_toFinset] at hx ⊢
    exact hsub x hx
  rw [List.toFinset_card_of_nodup hnd, hlen19] at h1
  have h2 : (occ.map Prod.fst).toFinset.card ≤ (occ.map Prod.fst).length :=
    List.toFinset_card_le _
  rw [List.length_map] at h2
  omega

/-! ### The pairwise-disjoint invariant of the placement loop -/

theorem hasConflictRow_false (occ : Occ) (row : ℤ) (l r : ℚ)
    (h : hasConflictRow occ row l r = false) :
    ∀ rg ∈ lookupOcc occ row, r + RGAP < rg.1 ∨ l - RGAP > rg.2 := by
  intro rg hrg
  have := List.any_eq_false.mp h rg hrg
  simp only [rangeConflict, Bool.not_eq_true', Bool.not_eq_false, Bool.or_eq_true,
    decide_eq_true_eq] at this
  simpa using this

theorem assignAux_pairwise (W : ℚ) :
    ∀ (rest : List (RMilestone × ℚ)) (occ : Occ) (acc : List RPlaced),
      occ.length ≤ acc.length →
      (∀ p ∈ acc, (leftOf W p, rightOf W p) ∈ lookupOcc occ p.row) →
      acc.Pairwise (RowsDisjoint W) →
      acc.length + rest.length ≤ 19 →
      (assignAux W occ rest acc).Pairwise (RowsDisjoint W) := by
  intro rest
  induction rest with
  | nil => intro occ acc _ _ hp _; exact hp
  | cons mw rest ih =>
      rcases mw with ⟨m, w⟩
      intro occ acc hlen hocc hp hb
      simp only [assignAux]
      have hfree : hasConflictRow occ (placeMs W occ m w)
          (m.position / 100 * W - w / 2) (m.position / 100 * W + w / 2) = false := by
        apply searchGo_free
        have hlen18 : occ.length ≤ 18 := by
          simp only [List.length_cons] at hb
          omega
        rcases exists_free_distance occ (m.position / 100 * W - w / 2)
            (m.position / 100 * W + w / 2) hlen18 with ⟨d', hd10, hrow⟩
        exact ⟨d', Nat.zero_le _, by omega, hrow⟩
      apply ih
      · rw [List.length_append, List.length_singleton]
        have := pushOcc_length occ (placeMs W occ m w)
          (m.position / 100 * W - w / 2, m.position / 100 * W + w / 2)
        omega
      · intro p hp'
        rcases List.mem_append.mp hp' with h1 | h2
        · by_cases hrow : p.row = placeMs W occ m w
          · rw [hrow, lookupOcc_push_same]
            exact List.mem_append_left _ (hrow ▸ hocc p h1)
          · rw [lookupOcc_push_ne _ _ _ _ hrow]
            exact hocc p h1
        · rcases List.mem_singleton.mp h2 with rfl
          rw [show (⟨m.position, m.label, w, placeMs W occ m w⟩ : RPlaced).row =
            placeMs W occ m w from rfl]
          rw [lookupOcc_push_same]
          exact List.mem_append_right _ (List.mem_singleton.mpr rfl)
      · rw [List.pairwise_append]
        refine ⟨hp, List.pairwise_singleton _ _, ?_⟩
        intro a ha b hbm
        rcases List.mem_singleton.mp hbm with rfl
        intro hrow
        have hmem : (leftOf W a, rightOf W a) ∈ lookupOcc occ (placeMs W occ m w) := by
          have := hocc a ha
          rwa [hrow] at this
        have := hasConflictRow_false occ (placeMs W occ m w)
          (m.position / 100 * W - w / 2) (m.position / 100 * W + w / 2) hfree
          (leftOf W a, rightOf W a) hmem
        exact this
      · rw [List.length_append, List.length_singleton]
        simp only [List.length_cons] at hb
        omega

/-- C5 (amended): any two milestones `assignRows` puts in the same row have
gap-expanded time-axis extents that do not overlap, provided every milestone
finds a conflict-free row within the search budget — which holds whenever the
input has at most 19 milestones (the 19 rows the bounded outward search can
reach cannot all be occupied). -/
theorem c5_same_row_disjoint (milestones : List RMilestone) (W : ℚ)
    (emojis : List (String × String)) (mtw : String → ℚ)
    (hlen : milestones.length ≤ 19) :
    (assignRows milestones W emojis mtw).Pairwise (RowsDisjoint W) := by
  unfold assignRows
  apply assignAux_pairwise
  · exact Nat.le_refl 0
  · intro p hp
    exact absurd hp (List.not_mem_nil p)
  · exact List.Pairwise.nil
  · rw [sortBy_length, List.length_map]
    simpa using hlen

/-- C5 (amended) witness: two milestones, pairwise disjoint rows. -/
theorem c5_same_row_disjoint_witness :
    (assignRows ex2 100 [] mtw7).Pairwise (RowsDisjoint 100) :=
  c5_same_row_disjoint ex2 100 [] mtw7 (by decide)

/-- C5 counterexample: with 20 identical milestones (inside the claimed 5–200
range) the bounded row search falls back to row 0 for the 20th milestone, so
the 1st and 20th both land in row 0 with identical, overlapping extents. -/
theorem c5_counterexample :
    ex20.length = 20 ∧
      ex20out.getD 0 ⟨0, "", 0, 99⟩ = exPlaced ∧
      ex20out.getD 19 ⟨0, "", 0, 99⟩ = exPlaced ∧
      ¬(rightOf 100 exPlaced + RGAP < leftOf 100 exPlaced ∨
        leftOf 100 exPlaced - RGAP > rightOf 100 exPlaced) :=
  ⟨rfl, by decide!, by decide!, by decide!⟩

end Timeline
